import Mathlib

/-!
# Verification of the KAPLAYware stage-transition engine

Shallow embedding of `src/scenes/game/transitions/makeTransition.ts` and
`src/conductor.ts`.

Modelling conventions:

* A `TransitionStage` value is modelled as a `String`.  The dispatched value of
  a stage-enter notification is an `Option String`, because `trigger(stages)`
  calls `enterStage(stages[0])`, which is the JavaScript value `undefined` when
  `stages` is empty; JavaScript `==` then makes `undefined == undefined` true
  and `undefined == "prep"` false, which is exactly `Option` equality against
  `none` here.
* KAPLAY's `KEvent` (an external collaborator; the Event Channel contract of
  the spec, §4.1) is modelled as the list of its currently registered
  handlers: `add` appends, `trigger` invokes every handler in subscription
  order, `clear` empties the list.  Handlers registered by this code base are
  pure observers for the purposes of the claims, so a dispatch is modelled as
  the list of observation events it emits, in order.
* The no-payload channels (`promptEv`, `inputEv`, `endTransEv`) carry
  indistinguishable subscribers, so their handler lists are modelled by their
  length (a `Nat`); a dispatch emits that many events.
* The trace additionally records one marker event per `enterStage` /
  `finishStage` dispatch (`Ev.enterD` / `Ev.finishD`); these are
  instrumentation markers, not observable callbacks, and are filtered out by
  `extEvents` when a claim talks about what external subscribers observe.
-/

/-- Observation events emitted while the transition machine runs.
`enterD`/`finishD` are dispatch markers; `evOnStart` records an
`onStart`-registered action running; `evBehavior s` records a
`defineStage s` action running; `extStart`/`extEnd`/`transEnd`/`promptT`/
`inputT` record an external subscriber of the corresponding channel firing. -/
inductive Ev where
  | enterD (v : Option String)
  | finishD (v : String)
  | evOnStart
  | evBehavior (s : String)
  | extStart (s : String)
  | extEnd (s : String)
  | transEnd
  | promptT
  | inputT
deriving DecidableEq

/-- A handler registered on the internal `stageManager.startEv` channel:
either the closure added by `onStart` (fires when the dispatched stage equals
`this.stages[0]`) or the closure added by `defineStage s` (fires when the
dispatched stage equals `s`).  (`makeTransition.ts` lines 69–78.) -/
inductive IntH where
  | hOnStart
  | hDefine (s : String)
deriving DecidableEq

/-- The mutable state closed over by `createTransition`
(`makeTransition.ts` lines 56–124):
the `stageManager`'s `stages` list, the internal `startEv` handler list
(`intStart`), whether the advancement listener is installed on the internal
`endEv` (`advOn`; installed once at line 96 and never removed), the handler
lists of the five external channels (`onStageStart`/`onStageEnd` handlers are
represented by their filter stage; the payloadless channels by subscriber
counts), the `camera` object's `paused`/`hidden` flags, and `defRuns`, an
instrumentation counter of how many times the caller-supplied
`TransitionDefinition` callback has been executed. -/
structure TransState where
  stages : List String
  intStart : List IntH
  advOn : Bool
  extStartSubs : List String
  extEndSubs : List String
  promptSubs : Nat
  inputSubs : Nat
  transEndSubs : Nat
  camPaused : Bool
  camHidden : Bool
  defRuns : Nat
deriving DecidableEq

/-- JavaScript `Array.prototype.indexOf`, first-occurrence position
(`none` for the JavaScript result `-1`). -/
def jsIndexOfN : List String → String → Option Nat
  | [], _ => none
  | a :: l, v => if a = v then some 0 else (jsIndexOfN l v).map (· + 1)

/-- JavaScript `Array.prototype.indexOf` with its `-1` not-found convention,
as used in the advancement listener (`makeTransition.ts` line 97). -/
def jsIndexOf (l : List String) (v : String) : Int :=
  match jsIndexOfN l v with
  | none => -1
  | some n => n

/-- Dispatch of the internal `stageManager.startEv` channel with value `v`:
each handler runs in subscription order; the `onStart` closure compares `v`
against the current `this.stages[0]` (lines 70–72), the `defineStage s`
closure compares `v` against `s` (lines 75–77). -/
def dispatchIntStart (hs : List IntH) (stages : List String) (v : Option String) : List Ev :=
  hs.filterMap fun h =>
    match h with
    | .hOnStart => if v = stages.head? then some .evOnStart else none
    | .hDefine s => if v = some s then some (.evBehavior s) else none

/-- Dispatch of the external `startEv` channel: each subscriber added by
`onStageStart(stage, action)` fires when the dispatched value equals its
filter stage (lines 125–129). -/
def dispatchExtStart (subs : List String) (v : Option String) : List Ev :=
  subs.filterMap fun s => if v = some s then some (.extStart s) else none

/-- Dispatch of the external `endEv` channel: each subscriber added by
`onStageEnd(stage, action)` fires when the dispatched value equals its
filter stage (lines 130–134). -/
def dispatchExtEnd (subs : List String) (v : String) : List Ev :=
  subs.filterMap fun s => if v = s then some (.extEnd s) else none

/-- `stageManager.enterStage(stage)` (lines 79–82): triggers the internal
`startEv` then the external `startEv`, both with the same value.  It does not
mutate any state, so only the emitted events are returned.  The leading
`Ev.enterD v` is a trace marker recording that a stage-enter dispatch with
value `v` took place. -/
def enterStage (st : TransState) (v : Option String) : List Ev :=
  Ev.enterD v :: (dispatchIntStart st.intStart st.stages v ++ dispatchExtStart st.extStartSubs v)

/-- The state mutation performed by the terminal branch of the advancement
listener (lines 98–107): clear the five external channels, pause and hide the
camera.  `stages`, the internal channels (`intStart`, `advOn`) and `defRuns`
are untouched. -/
def clearedOf (st : TransState) : TransState :=
  { st with
      extStartSubs := [], extEndSubs := [], promptSubs := 0, inputSubs := 0,
      transEndSubs := 0, camPaused := true, camHidden := true }

/-- The advancement listener installed on the internal `endEv`
(lines 95–108), run with dispatched value `v`:
if `stages.indexOf(v) < stages.length - 1` then `enterStage(stages[indexOf(v)+1])`,
else fire `endTransEv`, clear the five external channels, and pause/hide the
camera. -/
def advanceStep (st : TransState) (v : String) : TransState × List Ev :=
  let idx := jsIndexOf st.stages v
  if idx < (st.stages.length : Int) - 1 then
    (st, enterStage st st.stages[(idx + 1).toNat]?)
  else
    (clearedOf st, List.replicate st.transEndSubs Ev.transEnd)

/-- `stageManager.finishStage(stage)` (lines 83–86): triggers the internal
`endEv` (whose sole handler is the advancement listener, when installed) and
then the external `endEv` — on the handler list as left by the internal
dispatch, so a cleared external channel fires nobody.  The leading
`Ev.finishD v` is a trace marker for the stage-end dispatch. -/
def finishStage (st : TransState) (v : String) : TransState × List Ev :=
  let (st1, evs1) := if st.advOn then advanceStep st v else (st, [])
  (st1, Ev.finishD v :: (evs1 ++ dispatchExtEnd st1.extEndSubs v))

/-- The handle's `trigger(stages)` (lines 118–124): overwrite
`stageManager.stages`, call `enterStage(stages[0])` (the JavaScript value
`undefined`, i.e. `none`, when `stages` is empty), then unpause and unhide the
camera. -/
def triggerRun (st : TransState) (stages : List String) : TransState × List Ev :=
  let st1 := { st with stages := stages }
  let evs := enterStage st1 stages.head?
  ({ st1 with camPaused := false, camHidden := false }, evs)

/-- `stageManager.callPrompt()` (lines 87–89). -/
def callPrompt (st : TransState) : List Ev :=
  List.replicate st.promptSubs Ev.promptT

/-- `stageManager.callInput()` (lines 90–92). -/
def callInput (st : TransState) : List Ev :=
  List.replicate st.inputSubs Ev.inputT

/-- The handle's `stages` getter (lines 115–117): returns the live
`stageManager.stages`. -/
def stagesView (st : TransState) : List String :=
  st.stages

/-- Handle subscription `onStageStart(stage, action)`: appends a filtered
handler to the external `startEv` (lines 125–129). -/
def onStageStartSub (st : TransState) (s : String) : TransState :=
  { st with extStartSubs := st.extStartSubs ++ [s] }

/-- Handle subscription `onStageEnd(stage, action)` (lines 130–134). -/
def onStageEndSub (st : TransState) (s : String) : TransState :=
  { st with extEndSubs := st.extEndSubs ++ [s] }

/-- Handle subscription `onTransitionEnd(action)` (lines 135–139). -/
def onTransitionEndSub (st : TransState) : TransState :=
  { st with transEndSubs := st.transEndSubs + 1 }

/-- Handle subscription `onPromptTime(action)` (lines 140–142). -/
def onPromptTimeSub (st : TransState) : TransState :=
  { st with promptSubs := st.promptSubs + 1 }

/-- Handle subscription `onInputPromptTime(action)` (lines 143–145). -/
def onInputPromptTimeSub (st : TransState) : TransState :=
  { st with inputSubs := st.inputSubs + 1 }

/-- `stageManager.onStart(action)` (lines 69–73): appends the
first-stage-filtered closure to the internal `startEv`. -/
def onStartReg (st : TransState) : TransState :=
  { st with intStart := st.intStart ++ [.hOnStart] }

/-- `stageManager.defineStage(stage, action)` (lines 74–78): appends the
stage-filtered closure to the internal `startEv`. -/
def defineStageReg (st : TransState) (s : String) : TransState :=
  { st with intStart := st.intStart ++ [.hDefine s] }

/-- One registration performed by a caller-supplied `TransitionDefinition`:
a call to `onStart` or to `defineStage`. -/
inductive DefCmd where
  | dOnStart
  | dDefine (s : String)
deriving DecidableEq

/-- Execution of a `TransitionDefinition`, represented by the list of
registrations it performs against the `stageManager`. -/
def runDef (st : TransState) : List DefCmd → TransState
  | [] => st
  | c :: cs =>
    match c with
    | .dOnStart => runDef (onStartReg st) cs
    | .dDefine s => runDef (defineStageReg st s) cs

/-- The state built by `createTransition` before the `TransitionDefinition`
runs (lines 56–108): fresh empty channels, `stages: []`, the advancement
listener installed on the internal `endEv`, camera freshly added (neither
paused nor hidden), definition not yet executed. -/
def initState : TransState :=
  { stages := [], intStart := [], advOn := true, extStartSubs := [],
    extEndSubs := [], promptSubs := 0, inputSubs := 0, transEndSubs := 0,
    camPaused := false, camHidden := false, defRuns := 0 }

/-- `createTransition(transAction, ...)` (lines 56–147): set up channels, the
camera and the advancement listener, then execute the caller-supplied
definition exactly once (line 111; `defRuns` counts its executions) and return
the handle. -/
def createTransition (d : List DefCmd) : TransState :=
  let st := runDef initState d
  { st with defRuns := st.defRuns + 1 }

/-- A public API call on a constructed transition: the handle's `trigger`, or
one of the `stageManager` operations reachable from stage behaviors. -/
inductive Call where
  | triggerC (ss : List String)
  | finishC (s : String)
  | enterC (s : String)
  | promptC
  | inputC
deriving DecidableEq

/-- One API call, mapped to its state change and emitted events. -/
def stepCall (st : TransState) : Call → TransState × List Ev
  | .triggerC ss => triggerRun st ss
  | .finishC s => finishStage st s
  | .enterC s => (st, enterStage st (some s))
  | .promptC => (st, callPrompt st)
  | .inputC => (st, callInput st)

/-- Run a list of API calls, concatenating the emitted events. -/
def runCalls (st : TransState) : List Call → TransState × List Ev
  | [] => (st, [])
  | c :: cs =>
    let (st1, e1) := stepCall st c
    let (st2, e2) := runCalls st1 cs
    (st2, e1 ++ e2)

/-- Is this event an external subscriber firing (one of the five external
channels), as opposed to an internal behavior or a dispatch marker? -/
def Ev.isExt : Ev → Bool
  | .extStart _ => true
  | .extEnd _ => true
  | .transEnd => true
  | .promptT => true
  | .inputT => true
  | _ => false

/-- The externally observable subsequence of a trace. -/
def extEvents (t : List Ev) : List Ev :=
  t.filter Ev.isExt

/-- A fresh handle built with an empty definition, after subscribing one
`onStageStart` and one `onStageEnd` listener per stage of `S` (in order of
`S`) and one `onTransitionEnd` listener. -/
def subscribedState (S : List String) : TransState :=
  onTransitionEndSub ((S.foldl onStageEndSub (S.foldl onStageStartSub (createTransition []))))

/-- Events emitted by one advancing `finishStage t` step whose advancement
enters stage `u`, from the (unchanged) state `st`. -/
def midEvents (st : TransState) (t u : String) : List Ev :=
  Ev.finishD t :: (enterStage st (some u) ++ dispatchExtEnd st.extEndSubs t)

/-- Events emitted by driving `finishStage` through `t :: T`, the suffix of
the current sequence starting at the active stage `t`. -/
def runSuffix (st : TransState) : String → List String → List Ev
  | t, [] => Ev.finishD t :: List.replicate st.transEndSubs Ev.transEnd
  | t, u :: T => midEvents st t u ++ runSuffix st u T

/-- The external events a fully driven run over `t :: T` emits after the
initial stage-start of `t`: start of each next stage before end of the
previous one, and a final transition-end with the last stage-end suppressed. -/
def expectedExtRun : String → List String → List Ev
  | _, [] => [Ev.transEnd]
  | t, u :: T => Ev.extStart u :: Ev.extEnd t :: expectedExtRun u T

/-- The full external trace of a driven run over a non-empty sequence. -/
def c1Expected : List String → List Ev
  | [] => []
  | s :: T => Ev.extStart s :: expectedExtRun s T

/-!
## Conductor (`src/conductor.ts`)

`sound.time()` and `bpm` are modelled as exact rationals; `Math.floor` is the
rational floor.  The `beatHitEv` subscriber list is modelled by its size, and
one `CEv.beat` event is emitted per subscriber per `trigger`.
-/

/-- One beat-hit callback invocation. -/
inductive CEv where
  | beat
deriving DecidableEq

/-- The `Conductor`'s per-update mutable state: `currentBeat` (initialised to
`0` in the constructor, `conductor.ts` line 33) and its `beatHitEv` subscriber
count. -/
structure CondState where
  currentBeat : ℚ
  subs : Nat
deriving DecidableEq

/-- The beat index the conductor derives from a playback position `t`:
`Math.floor(sound.time() / (60 / bpm))` (`conductor.ts` lines 35–37). -/
def beatIndex (bpm t : ℚ) : ℤ :=
  ⌊t / (60 / bpm)⌋

/-- One `onUpdate` tick of the conductor (`conductor.ts` lines 34–41) at
playback position `t`: compute `oldBeat = Math.floor(currentBeat)` and the new
`currentBeat = Math.floor(beatTime)`; fire `beatHitEv` once when they differ. -/
def conductorUpdate (bpm : ℚ) (st : CondState) (t : ℚ) : CondState × List CEv :=
  let oldBeat := ⌊st.currentBeat⌋
  let nb := beatIndex bpm t
  (⟨(nb : ℚ), st.subs⟩, if nb ≠ oldBeat then List.replicate st.subs CEv.beat else [])

/-- Run the conductor over a list of per-frame playback positions. -/
def conductorRun (bpm : ℚ) (st : CondState) : List ℚ → CondState × List CEv
  | [] => (st, [])
  | t :: ts =>
    let (st1, e1) := conductorUpdate bpm st t
    let (st2, e2) := conductorRun bpm st1 ts
    (st2, e1 ++ e2)

/-- The number of frames at which the derived beat index changes, starting
from index `prev`. -/
def idxChanges (bpm : ℚ) (prev : ℤ) : List ℚ → Nat
  | [] => 0
  | t :: ts => (if beatIndex bpm t ≠ prev then 1 else 0) + idxChanges bpm (beatIndex bpm t) ts

/-- The number of beat boundaries the playback position crosses over a list of
frames, starting from index `prev` (what "fires once per beat boundary
crossed" counts). -/
def boundariesCrossed (bpm : ℚ) (prev : ℤ) : List ℚ → Nat
  | [] => 0
  | t :: ts => (beatIndex bpm t - prev).natAbs + boundariesCrossed bpm (beatIndex bpm t) ts

/-- Temporal precedence over a trace: in every prefix (every split of `l`),
occurrences of `a` are bounded by occurrences of `b` — `a` never happens
unless `b` has already happened at least as often. -/
def Precedes (a b : Ev) (l : List Ev) : Prop :=
  ∀ t1 t2 : List Ev, l = t1 ++ t2 → t1.count a ≤ t1.count b

/-- A concrete mid-run state: sequence `["prep","win"]`, a behavior defined
for "prep", stage-start subscribers for both stages, stage-end subscribers
for "prep", "win" and "lose", one transition-end subscriber. -/
def c3State : TransState :=
  { stages := ["prep", "win"], intStart := [IntH.hDefine "prep"], advOn := true,
    extStartSubs := ["prep", "win"], extEndSubs := ["prep", "win", "lose"],
    promptSubs := 0, inputSubs := 0, transEndSubs := 1,
    camPaused := false, camHidden := false, defRuns := 1 }

/-- The state of a handle subscribed for the one-stage sequence `["win"]`
right after `trigger(["win"])`; a concrete mid-run state. -/
def winActive : TransState :=
  (runCalls (subscribedState ["win"]) [Call.triggerC ["win"]]).1

/-! ## Helper lemmas -/

theorem jsIndexOfN_of_not_mem {l : List String} {v : String} (h : v ∉ l) :
    jsIndexOfN l v = none := by
  induction l with
  | nil => rfl
  | cons a l ih =>
    have ha : ¬ a = v := fun hav => h (hav ▸ List.mem_cons_self a l)
    rw [jsIndexOfN, if_neg ha, ih fun hm => h (List.mem_cons_of_mem a hm)]
    rfl

theorem jsIndexOfN_append_cons {P T : List String} {t : String} (h : t ∉ P) :
    jsIndexOfN (P ++ t :: T) t = some P.length := by
  induction P with
  | nil => simp [jsIndexOfN]
  | cons a P ih =>
    have ha : ¬ a = t := fun hat => h (hat ▸ List.mem_cons_self a P)
    have ht : t ∉ P := fun hm => h (List.mem_cons_of_mem a hm)
    rw [List.cons_append, jsIndexOfN, if_neg ha, ih ht]
    rfl

theorem jsIndexOfN_getElem? {l : List String} {v : String} :
    ∀ {n : Nat}, jsIndexOfN l v = some n → l[n]? = some v := by
  induction l with
  | nil => intro n h; simp [jsIndexOfN] at h
  | cons a l ih =>
    intro n h
    by_cases hav : a = v
    · rw [jsIndexOfN, if_pos hav] at h
      rcases h
      simp [hav]
    · rw [jsIndexOfN, if_neg hav] at h
      rcases hj : jsIndexOfN l v with _ | m
      · rw [hj] at h
        simp at h
      · rw [hj] at h
        simp only [Option.map_some', Option.some.injEq] at h
        subst h
        simpa using ih hj

theorem dispatchIntStart_cons (h : IntH) (hs : List IntH) (stages : List String)
    (v : Option String) :
    dispatchIntStart (h :: hs) stages v =
      (match h with
       | .hOnStart => if v = stages.head? then [Ev.evOnStart] else []
       | .hDefine s => if v = some s then [Ev.evBehavior s] else []) ++
        dispatchIntStart hs stages v := by
  cases h with
  | hOnStart =>
    by_cases hc : v = stages.head? <;> simp [dispatchIntStart, List.filterMap_cons, hc]
  | hDefine s =>
    by_cases hc : v = some s <;> simp [dispatchIntStart, List.filterMap_cons, hc]

theorem dispatchExtStart_cons (a : String) (l : List String) (v : Option String) :
    dispatchExtStart (a :: l) v =
      (if v = some a then [Ev.extStart a] else []) ++ dispatchExtStart l v := by
  by_cases h : v = some a <;> simp [dispatchExtStart, List.filterMap_cons, h]

theorem dispatchExtEnd_cons (a : String) (l : List String) (v : String) :
    dispatchExtEnd (a :: l) v =
      (if v = a then [Ev.extEnd a] else []) ++ dispatchExtEnd l v := by
  by_cases h : v = a <;> simp [dispatchExtEnd, List.filterMap_cons, h]

theorem dispatchExtStart_none (subs : List String) :
    dispatchExtStart subs none = [] := by
  induction subs with
  | nil => rfl
  | cons a l ih => simp [dispatchExtStart_cons, ih]

theorem dispatchExtStart_not_mem {subs : List String} {u : String} (h : u ∉ subs) :
    dispatchExtStart subs (some u) = [] := by
  induction subs with
  | nil => rfl
  | cons a l ih =>
    have ha : ¬ (some u = some a) := by
      intro hsome
      exact h (Option.some.inj hsome ▸ List.mem_cons_self a l)
    rw [dispatchExtStart_cons, if_neg ha, ih fun hm => h (List.mem_cons_of_mem a hm)]
    rfl

theorem dispatchExtStart_nodup {subs : List String} {u : String}
    (hnd : subs.Nodup) (hm : u ∈ subs) :
    dispatchExtStart subs (some u) = [Ev.extStart u] := by
  induction subs with
  | nil => simp at hm
  | cons a l ih =>
    rcases List.mem_cons.mp hm with rfl | hm'
    · rw [dispatchExtStart_cons, if_pos rfl,
        dispatchExtStart_not_mem (List.nodup_cons.mp hnd).1]
      rfl
    · have ha : ¬ (some u = some a) := by
        intro hsome
        exact (List.nodup_cons.mp hnd).1 (Option.some.inj hsome ▸ hm')
      rw [dispatchExtStart_cons, if_neg ha, ih (List.nodup_cons.mp hnd).2 hm']
      rfl

theorem dispatchExtEnd_not_mem {subs : List String} {u : String} (h : u ∉ subs) :
    dispatchExtEnd subs u = [] := by
  induction subs with
  | nil => rfl
  | cons a l ih =>
    have ha : ¬ u = a := fun hu => h (hu ▸ List.mem_cons_self a l)
    rw [dispatchExtEnd_cons, if_neg ha, ih fun hm => h (List.mem_cons_of_mem a hm)]
    rfl

theorem dispatchExtEnd_nodup {subs : List String} {u : String}
    (hnd : subs.Nodup) (hm : u ∈ subs) :
    dispatchExtEnd subs u = [Ev.extEnd u] := by
  induction subs with
  | nil => simp at hm
  | cons a l ih =>
    rcases List.mem_cons.mp hm with rfl | hm'
    · rw [dispatchExtEnd_cons, if_pos rfl,
        dispatchExtEnd_not_mem (List.nodup_cons.mp hnd).1]
      rfl
    · have ha : ¬ u = a := fun hu => (List.nodup_cons.mp hnd).1 (hu ▸ hm')
      rw [dispatchExtEnd_cons, if_neg ha, ih (List.nodup_cons.mp hnd).2 hm']
      rfl

theorem runCalls_append (st : TransState) (cs1 cs2 : List Call) :
    runCalls st (cs1 ++ cs2) =
      ((runCalls (runCalls st cs1).1 cs2).1,
       (runCalls st cs1).2 ++ (runCalls (runCalls st cs1).1 cs2).2) := by
  induction cs1 generalizing st with
  | nil => simp [runCalls]
  | cons c cs ih => simp [runCalls, ih]

theorem not_mem_left_of_nodup {P T : List String} {t : String}
    (hnd : (P ++ t :: T).Nodup) : t ∉ P :=
  fun hm => (List.disjoint_of_nodup_append hnd) hm (List.mem_cons_self t T)

/-- An advancing `finishStage`: when the finished stage's first occurrence has
a strictly later position in the sequence, the state is unchanged and the next
stage is entered inside the stage-end dispatch, before the external stage-end
subscribers fire. -/
theorem finishStage_mid {st : TransState} {P T : List String} {t u : String}
    (hadv : st.advOn = true) (hst : st.stages = P ++ t :: u :: T)
    (ht : t ∉ P) :
    finishStage st t = (st, midEvents st t u) := by
  have hidx : jsIndexOf st.stages t = (P.length : Int) := by
    rw [hst, jsIndexOf, jsIndexOfN_append_cons ht]
  have hlen : st.stages.length = P.length + (T.length + 2) := by
    rw [hst]; simp [List.length_append]
  have hguard : jsIndexOf st.stages t < (st.stages.length : Int) - 1 := by
    rw [hidx, hlen]; push_cast; omega
  have htn : (((P.length : Int)) + 1).toNat = P.length + 1 := by omega
  have hnext : st.stages[(jsIndexOf st.stages t + 1).toNat]? = some u := by
    rw [hidx, htn, hst, List.getElem?_append_right (by omega)]
    simp
  simp only [finishStage, advanceStep, hadv, if_true, if_pos hguard, hnext, midEvents]

/-- A terminal `finishStage`: when the finished stage's first occurrence is the
last position, transition-end fires, the five external channels are cleared and
the camera is paused/hidden — so the subsequent external stage-end dispatch
fires nobody. -/
theorem finishStage_last {st : TransState} {P : List String} {t : String}
    (hadv : st.advOn = true) (hst : st.stages = P ++ [t]) (ht : t ∉ P) :
    finishStage st t =
      (clearedOf st, Ev.finishD t :: List.replicate st.transEndSubs Ev.transEnd) := by
  have hidx : jsIndexOf st.stages t = (P.length : Int) := by
    rw [hst, jsIndexOf, jsIndexOfN_append_cons ht]
  have hlen : st.stages.length = P.length + 1 := by
    rw [hst]; simp
  have hguard : ¬ jsIndexOf st.stages t < (st.stages.length : Int) - 1 := by
    rw [hidx, hlen]; push_cast; omega
  simp only [finishStage, advanceStep, hadv, if_true, if_neg hguard]
  have : dispatchExtEnd (clearedOf st).extEndSubs t = [] := rfl
  rw [this, List.append_nil]

/-- `finishStage` on a stage absent from a non-empty sequence: `indexOf`
returns `-1`, `-1 < length - 1` holds, and `stages[-1 + 1]`, the *first* stage,
is re-entered. -/
theorem finishStage_unknown {st : TransState} {v : String}
    (hadv : st.advOn = true) (hv : v ∉ st.stages) (hne : st.stages ≠ []) :
    finishStage st v =
      (st, Ev.finishD v ::
        (enterStage st st.stages.head? ++ dispatchExtEnd st.extEndSubs v)) := by
  have hidx : jsIndexOf st.stages v = -1 := by
    rw [jsIndexOf, jsIndexOfN_of_not_mem hv]
  have hguard : jsIndexOf st.stages v < (st.stages.length : Int) - 1 := by
    rw [hidx]
    have : 0 < st.stages.length := List.length_pos.mpr hne
    omega
  have hnext : st.stages[(jsIndexOf st.stages v + 1).toNat]? = st.stages.head? := by
    rw [hidx]
    simpa using (List.head?_eq_getElem? st.stages).symm
  simp only [finishStage, advanceStep, hadv, if_true, if_pos hguard, hnext]

/-- Driving `finishStage` through the suffix `t :: T` of the current sequence:
each step re-enters the next stage inside the stage-end dispatch and leaves the
state unchanged, and the final step tears the external channels down. -/
theorem runFinishSuffix (T : List String) : ∀ (P : List String) (t : String) (st : TransState),
    st.advOn = true → st.stages = P ++ t :: T → (P ++ t :: T).Nodup →
    runCalls st ((t :: T).map Call.finishC) = (clearedOf st, runSuffix st t T) := by
  induction T with
  | nil =>
    intro P t st hadv hst hnd
    have ht : t ∉ P := not_mem_left_of_nodup hnd
    simp [runCalls, stepCall, finishStage_last hadv hst ht, runSuffix]
  | cons u T ih =>
    intro P t st hadv hst hnd
    have ht : t ∉ P := not_mem_left_of_nodup hnd
    have hmid := finishStage_mid hadv hst ht
    have hassoc : P ++ t :: u :: T = (P ++ [t]) ++ u :: T := by simp
    have hst' : st.stages = (P ++ [t]) ++ u :: T := by rw [hst, hassoc]
    have hnd' : ((P ++ [t]) ++ u :: T).Nodup := by rw [← hassoc]; exact hnd
    have hrec := ih (P ++ [t]) u st hadv hst' hnd'
    have hsingle : runCalls st [Call.finishC t] = (st, midEvents st t u) := by
      simp [runCalls, stepCall, hmid]
    have hsplit : List.map Call.finishC (t :: u :: T) =
        [Call.finishC t] ++ List.map Call.finishC (u :: T) := by simp
    rw [hsplit, runCalls_append, hsingle, hrec]
    rfl

theorem foldl_onStageStartSub (S : List String) : ∀ st : TransState,
    S.foldl onStageStartSub st = { st with extStartSubs := st.extStartSubs ++ S } := by
  induction S with
  | nil => intro st; simp
  | cons a S ih =>
    intro st
    rw [List.foldl_cons, ih]
    simp [onStageStartSub]

theorem foldl_onStageEndSub (S : List String) : ∀ st : TransState,
    S.foldl onStageEndSub st = { st with extEndSubs := st.extEndSubs ++ S } := by
  induction S with
  | nil => intro st; simp
  | cons a S ih =>
    intro st
    rw [List.foldl_cons, ih]
    simp [onStageEndSub]

theorem subscribedState_eq (S : List String) :
    subscribedState S =
      { stages := [], intStart := [], advOn := true, extStartSubs := S,
        extEndSubs := S, promptSubs := 0, inputSubs := 0, transEndSubs := 1,
        camPaused := false, camHidden := false, defRuns := 1 } := by
  rw [subscribedState, foldl_onStageStartSub, foldl_onStageEndSub]
  simp [onTransitionEndSub, createTransition, runDef, initState]

/-- External events of a driven suffix, for a handle with one filtered
start/end subscriber per stage of `S`, one transition-end subscriber, and no
internal registrations: each advancing step is observed as
stage-start of the *next* stage followed by stage-end of the finished one, and
the terminal step as a single transition-end (its stage-end is suppressed by
the clearing). -/
theorem extEvents_runSuffix {S : List String} {st : TransState}
    (hint : st.intStart = []) (hstart : st.extStartSubs = S)
    (hend : st.extEndSubs = S) (htr : st.transEndSubs = 1) (hnd : S.Nodup) :
    ∀ (T : List String) (t : String), t ∈ S → (∀ x ∈ T, x ∈ S) →
    extEvents (runSuffix st t T) = expectedExtRun t T := by
  intro T
  induction T with
  | nil =>
    intro t htm _
    simp [runSuffix, extEvents, htr, Ev.isExt, expectedExtRun]
  | cons u T ih =>
    intro t htm hT
    have hu : u ∈ S := hT u (List.mem_cons_self u T)
    have hT' : ∀ x ∈ T, x ∈ S := fun x hx => hT x (List.mem_cons_of_mem u hx)
    have h1 : dispatchIntStart st.intStart st.stages (some u) = [] := by
      rw [hint]; rfl
    have h2 : dispatchExtStart st.extStartSubs (some u) = [Ev.extStart u] := by
      rw [hstart]; exact dispatchExtStart_nodup hnd hu
    have h3 : dispatchExtEnd st.extEndSubs t = [Ev.extEnd t] := by
      rw [hend]; exact dispatchExtEnd_nodup hnd htm
    rw [runSuffix, midEvents, enterStage]
    simp only [extEvents] at ih ⊢
    simp only [List.filter_cons, List.filter_append, h1, h2, h3]
    simp only [extEvents, Ev.isExt, List.filter_cons, List.filter_nil, List.filter_append]
    rw [show (List.filter Ev.isExt (runSuffix st u T)) = expectedExtRun u T from ih u hu hT']
    simp [expectedExtRun, Ev.isExt]

/-! ## Claim theorems -/

/-- C1 (counterexample): for `S = ["prep","win"]`, with one external
subscriber per stage on `onStageStart`/`onStageEnd` and one on
`onTransitionEnd`, calling `trigger(["prep","win"])` and then
`finishStage("prep")`, `finishStage("win")` does NOT make the external
subscribers observe the five claimed events stage-start("prep"),
stage-end("prep"), stage-start("win"), stage-end("win"), transition-end in
that order: they observe stage-start("prep"), stage-start("win"),
stage-end("prep"), transition-end — stage-start("win") fires inside the
stage-end dispatch of "prep" (before the external stage-end), and
stage-end("win") is suppressed because the terminal advancement clears the
external channels before the external stage-end dispatch runs. -/
theorem c1_counterexample :
    extEvents (runCalls (subscribedState ["prep", "win"])
        [Call.triggerC ["prep", "win"], Call.finishC "prep", Call.finishC "win"]).2 =
      [Ev.extStart "prep", Ev.extStart "win", Ev.extEnd "prep", Ev.transEnd] ∧
    extEvents (runCalls (subscribedState ["prep", "win"])
        [Call.triggerC ["prep", "win"], Call.finishC "prep", Call.finishC "win"]).2 ≠
      [Ev.extStart "prep", Ev.extEnd "prep", Ev.extStart "win", Ev.extEnd "win",
        Ev.transEnd] := by
  exact ⟨by decide, by decide⟩

/-- C1 (amended): for every stage sequence `S` of length `n ≥ 1` with
pairwise-distinct stages, triggering a fresh handle (with one external
subscriber per stage of `S` on `onStageStart` and `onStageEnd`, and one on
`onTransitionEnd`) and then calling `finishStage` on each stage of `S` in
order makes the external subscribers observe: stage-start of `S[0]`; then for
each `i < n-1`, stage-start of `S[i+1]` followed by stage-end of `S[i]`; then
exactly one transition-end.  So there are `n` stage-start events (in sequence
order), only `n-1` stage-end events (the last stage-end is suppressed by the
terminal channel clearing), stage-start of stage `i+1` precedes stage-end of
stage `i`, and the single transition-end is strictly last. -/
theorem c1_run_events (S : List String) (hS : S ≠ []) (hnd : S.Nodup) :
    extEvents (runCalls (subscribedState S) (Call.triggerC S :: S.map Call.finishC)).2 =
      c1Expected S := by
  obtain ⟨s0, T, rfl⟩ : ∃ s0 T, S = s0 :: T := by
    cases S with
    | nil => exact absurd rfl hS
    | cons a T => exact ⟨a, T, rfl⟩
  have hsub := subscribedState_eq (s0 :: T)
  set act : TransState :=
    { stages := s0 :: T, intStart := [], advOn := true, extStartSubs := s0 :: T,
      extEndSubs := s0 :: T, promptSubs := 0, inputSubs := 0, transEndSubs := 1,
      camPaused := false, camHidden := false, defRuns := 1 } with hact
  have hstep : stepCall (subscribedState (s0 :: T)) (Call.triggerC (s0 :: T)) =
      (act, Ev.enterD (some s0) :: [Ev.extStart s0]) := by
    rw [hsub]
    have hd : dispatchExtStart (s0 :: T) (some s0) =
        [Ev.extStart s0] := dispatchExtStart_nodup hnd (List.mem_cons_self s0 T)
    simp [stepCall, triggerRun, enterStage, dispatchIntStart, hd, hact]
  have hrun := runFinishSuffix T [] s0 act rfl (by simp [hact]) (by simpa using hnd)
  have hsfx : extEvents (runSuffix act s0 T) = expectedExtRun s0 T := by
    refine extEvents_runSuffix (S := s0 :: T) rfl rfl rfl rfl hnd T s0
      (List.mem_cons_self s0 T) (fun x hx => List.mem_cons_of_mem s0 hx)
  rw [show (Call.triggerC (s0 :: T) :: List.map Call.finishC (s0 :: T)) =
      [Call.triggerC (s0 :: T)] ++ List.map Call.finishC (s0 :: T) from rfl,
    runCalls_append]
  have h1 : runCalls (subscribedState (s0 :: T)) [Call.triggerC (s0 :: T)] =
      (act, Ev.enterD (some s0) :: [Ev.extStart s0]) := by
    simp [runCalls, hstep]
  rw [h1]
  show extEvents ([Ev.enterD (some s0), Ev.extStart s0] ++
      (runCalls act (List.map Call.finishC (s0 :: T))).2) = c1Expected (s0 :: T)
  rw [hrun]
  show extEvents ([Ev.enterD (some s0), Ev.extStart s0] ++ runSuffix act s0 T) =
    c1Expected (s0 :: T)
  have hfe : extEvents ([Ev.enterD (some s0), Ev.extStart s0] ++ runSuffix act s0 T) =
      Ev.extStart s0 :: extEvents (runSuffix act s0 T) := by
    simp [extEvents, Ev.isExt]
  rw [hfe, hsfx]
  rfl

/-- C1 (witness): the amended run shape at the concrete sequence
`["prep","win"]`. -/
theorem c1_run_events_witness :
    (["prep", "win"] : List String) ≠ [] ∧ (["prep", "win"] : List String).Nodup ∧
    extEvents (runCalls (subscribedState ["prep", "win"])
        (Call.triggerC ["prep", "win"] :: (["prep", "win"] : List String).map Call.finishC)).2 =
      c1Expected ["prep", "win"] :=
  ⟨by decide, by decide, c1_run_events ["prep", "win"] (by decide) (by decide)⟩

theorem extEvents_dispatchIntStart (hs : List IntH) (stages : List String) (v : Option String) :
    extEvents (dispatchIntStart hs stages v) = [] := by
  induction hs with
  | nil => rfl
  | cons h hs ih =>
    rw [dispatchIntStart_cons]
    simp only [extEvents] at ih ⊢
    rw [List.filter_append, ih]
    cases h with
    | hOnStart =>
      by_cases hc : v = stages.head? <;> simp [hc, Ev.isExt]
    | hDefine s =>
      by_cases hc : v = some s <;> simp [hc, Ev.isExt]

/-- After the external channels are cleared, every further API call emits no
externally observable event and leaves the external channels empty. -/
theorem cleared_step (st : TransState) (c : Call)
    (h1 : st.extStartSubs = []) (h2 : st.extEndSubs = []) (h3 : st.promptSubs = 0)
    (h4 : st.inputSubs = 0) (h5 : st.transEndSubs = 0) :
    extEvents (stepCall st c).2 = [] ∧
    (stepCall st c).1.extStartSubs = [] ∧ (stepCall st c).1.extEndSubs = [] ∧
    (stepCall st c).1.promptSubs = 0 ∧ (stepCall st c).1.inputSubs = 0 ∧
    (stepCall st c).1.transEndSubs = 0 := by
  cases c with
  | triggerC ss =>
    refine ⟨?_, h1, h2, h3, h4, h5⟩
    simp only [stepCall, triggerRun, enterStage, extEvents, List.filter_cons,
      List.filter_append]
    rw [h1]
    have hint := extEvents_dispatchIntStart st.intStart ss ss.head?
    simp only [extEvents] at hint
    simp [hint, Ev.isExt, dispatchExtStart]
  | enterC s =>
    refine ⟨?_, h1, h2, h3, h4, h5⟩
    simp only [stepCall, enterStage, extEvents, List.filter_cons, List.filter_append]
    rw [h1]
    have hint := extEvents_dispatchIntStart st.intStart st.stages (some s)
    simp only [extEvents] at hint
    simp [hint, Ev.isExt, dispatchExtStart]
  | promptC =>
    refine ⟨?_, h1, h2, h3, h4, h5⟩
    simp [stepCall, callPrompt, h3, extEvents]
  | inputC =>
    refine ⟨?_, h1, h2, h3, h4, h5⟩
    simp [stepCall, callInput, h4, extEvents]
  | finishC v =>
    cases hadv : st.advOn with
    | false =>
      have hs : stepCall st (Call.finishC v) =
          (st, Ev.finishD v :: dispatchExtEnd st.extEndSubs v) := by
        simp [stepCall, finishStage, hadv]
      rw [hs]
      refine ⟨?_, h1, h2, h3, h4, h5⟩
      rw [h2]
      simp [extEvents, Ev.isExt, dispatchExtEnd]
    | true =>
      by_cases hg : jsIndexOf st.stages v < (st.stages.length : Int) - 1
      · have hs : stepCall st (Call.finishC v) =
            (st, Ev.finishD v ::
              (enterStage st st.stages[(jsIndexOf st.stages v + 1).toNat]? ++
                dispatchExtEnd st.extEndSubs v)) := by
          simp [stepCall, finishStage, advanceStep, hadv, hg]
        rw [hs]
        refine ⟨?_, h1, h2, h3, h4, h5⟩
        simp only [extEvents, List.filter_cons, List.filter_append, enterStage]
        rw [h1, h2]
        have hint := extEvents_dispatchIntStart st.intStart st.stages
          st.stages[(jsIndexOf st.stages v + 1).toNat]?
        simp only [extEvents] at hint
        simp [hint, Ev.isExt, dispatchExtStart, dispatchExtEnd]
      · have hs : stepCall st (Call.finishC v) =
            (clearedOf st, Ev.finishD v :: List.replicate st.transEndSubs Ev.transEnd) := by
          simp only [stepCall, finishStage, advanceStep, hadv, if_true, if_neg hg]
          rw [show dispatchExtEnd (clearedOf st).extEndSubs v = [] from rfl]
          simp
        rw [hs]
        refine ⟨?_, rfl, rfl, rfl, rfl, rfl⟩
        rw [h5]
        simp [extEvents, Ev.isExt]

theorem cleared_runCalls (cs : List Call) : ∀ st : TransState,
    st.extStartSubs = [] → st.extEndSubs = [] → st.promptSubs = 0 →
    st.inputSubs = 0 → st.transEndSubs = 0 →
    extEvents (runCalls st cs).2 = [] := by
  induction cs with
  | nil => intro st _ _ _ _ _; simp [runCalls, extEvents]
  | cons c cs ih =>
    intro st h1 h2 h3 h4 h5
    obtain ⟨he, k1, k2, k3, k4, k5⟩ := cleared_step st c h1 h2 h3 h4 h5
    have := ih (stepCall st c).1 k1 k2 k3 k4 k5
    simp only [runCalls]
    rcases hsc : stepCall st c with ⟨st1, e1⟩
    rw [hsc] at he this
    simp only [extEvents, List.filter_append] at he this ⊢
    simp [he, this]

/-- C2 (counterexample): the claim says the terminal `finishStage` also clears
the internal start/end channels.  It does not: after the run
`trigger(["win"]); finishStage("win")` has fired transition-end, the internal
start channel still holds the `defineStage("win")` registration (the code
explicitly keeps `stageManager.startEv`/`endEv`, commented "KEvents that
shouldn't be cleared"). -/
theorem c2_counterexample :
    ((runCalls (createTransition [DefCmd.dDefine "win"])
        [Call.triggerC ["win"], Call.finishC "win"]).1).intStart =
      [IntH.hDefine "win"] ∧
    ((runCalls (createTransition [DefCmd.dDefine "win"])
        [Call.triggerC ["win"], Call.finishC "win"]).1).intStart ≠ [] := by
  exact ⟨by decide, by decide⟩

/-- C2 (amended): when `finishStage` runs for a stage whose `indexOf` position
is not strictly before the last position, the controller fires transition-end
(once per subscriber present *before* clearing), then empties the four
external lifecycle channels and the transition-end channel and pauses/hides
the camera — but the internal start/end channels are NOT cleared: the
`defineStage`/`onStart` registrations and the advancement listener survive,
and `stages` is kept.  Consequently, from any state whose external channels
are empty, every further sequence of `enterStage`/`finishStage` (or any other
API) calls emits no externally observable event: no stale external subscriber
fires (internal stage behaviors, however, may still run). -/
theorem c2_terminal_teardown :
    (∀ (st : TransState) (v : String), st.advOn = true →
      ¬ jsIndexOf st.stages v < (st.stages.length : Int) - 1 →
      finishStage st v =
        (clearedOf st, Ev.finishD v :: List.replicate st.transEndSubs Ev.transEnd) ∧
      (clearedOf st).extStartSubs = [] ∧ (clearedOf st).extEndSubs = [] ∧
      (clearedOf st).promptSubs = 0 ∧ (clearedOf st).inputSubs = 0 ∧
      (clearedOf st).transEndSubs = 0 ∧ (clearedOf st).camPaused = true ∧
      (clearedOf st).camHidden = true ∧ (clearedOf st).intStart = st.intStart ∧
      (clearedOf st).advOn = st.advOn ∧ (clearedOf st).stages = st.stages) ∧
    (∀ (st : TransState) (cs : List Call),
      st.extStartSubs = [] → st.extEndSubs = [] → st.promptSubs = 0 →
      st.inputSubs = 0 → st.transEndSubs = 0 →
      extEvents (runCalls st cs).2 = []) := by
  constructor
  · intro st v hadv hg
    refine ⟨?_, rfl, rfl, rfl, rfl, rfl, rfl, rfl, rfl, rfl, rfl⟩
    simp only [finishStage, advanceStep, hadv, if_true, if_neg hg]
    rw [show dispatchExtEnd (clearedOf st).extEndSubs v = [] from rfl]
    simp
  · intro st cs h1 h2 h3 h4 h5
    exact cleared_runCalls cs st h1 h2 h3 h4 h5

/-- C2 (witness): the teardown facts at the concrete mid-run state
`winActive` and the no-external-effect fact for a subsequent
`enterStage("win"); finishStage("win")` after clearing. -/
theorem c2_terminal_teardown_witness :
    (finishStage winActive "win" =
      (clearedOf winActive,
        Ev.finishD "win" :: List.replicate winActive.transEndSubs Ev.transEnd) ∧
      (clearedOf winActive).extStartSubs = [] ∧ (clearedOf winActive).extEndSubs = [] ∧
      (clearedOf winActive).promptSubs = 0 ∧ (clearedOf winActive).inputSubs = 0 ∧
      (clearedOf winActive).transEndSubs = 0 ∧ (clearedOf winActive).camPaused = true ∧
      (clearedOf winActive).camHidden = true ∧
      (clearedOf winActive).intStart = winActive.intStart ∧
      (clearedOf winActive).advOn = winActive.advOn ∧
      (clearedOf winActive).stages = winActive.stages) ∧
    extEvents (runCalls (clearedOf winActive)
        [Call.enterC "win", Call.finishC "win"]).2 = [] :=
  ⟨c2_terminal_teardown.1 winActive "win" (by decide) (by decide),
   c2_terminal_teardown.2 (clearedOf winActive) [Call.enterC "win", Call.finishC "win"]
     (by decide) (by decide) (by decide) (by decide) (by decide)⟩

theorem mem_dispatchExtStart {subs : List String} {v : Option String} {x : Ev}
    (h : x ∈ dispatchExtStart subs v) : ∃ s, x = Ev.extStart s := by
  rw [dispatchExtStart, List.mem_filterMap] at h
  obtain ⟨a, _, hfa⟩ := h
  by_cases hv : v = some a
  · rw [if_pos hv] at hfa
    exact ⟨a, (Option.some.inj hfa).symm⟩
  · rw [if_neg hv] at hfa
    exact absurd hfa (Option.noConfusion)

theorem mem_dispatchExtEnd {subs : List String} {v : String} {x : Ev}
    (h : x ∈ dispatchExtEnd subs v) : ∃ s, x = Ev.extEnd s := by
  rw [dispatchExtEnd, List.mem_filterMap] at h
  obtain ⟨a, _, hfa⟩ := h
  by_cases hv : v = a
  · rw [if_pos hv] at hfa
    exact ⟨a, (Option.some.inj hfa).symm⟩
  · rw [if_neg hv] at hfa
    exact absurd hfa (Option.noConfusion)

theorem count_evOnStart_dispatchIntStart (hs : List IntH) (stages : List String)
    (v : Option String) :
    (dispatchIntStart hs stages v).count Ev.evOnStart =
      if v = stages.head? then hs.count IntH.hOnStart else 0 := by
  induction hs with
  | nil => simp [dispatchIntStart]
  | cons h hs ih =>
    cases h with
    | hOnStart =>
      have e1 : (if v = stages.head? then [Ev.evOnStart] else []).count Ev.evOnStart =
          if v = stages.head? then 1 else 0 := by split <;> simp
      rw [dispatchIntStart_cons, List.count_append, ih, e1, List.count_cons]
      split <;> simp <;> omega
    | hDefine s =>
      have e1 : (if v = some s then [Ev.evBehavior s] else []).count Ev.evOnStart = 0 := by
        split <;> simp
      rw [dispatchIntStart_cons, List.count_append, ih, e1, List.count_cons]
      simp

theorem count_evBehavior_dispatchIntStart (hs : List IntH) (stages : List String)
    (v : Option String) (s : String) :
    (dispatchIntStart hs stages v).count (Ev.evBehavior s) =
      if v = some s then hs.count (IntH.hDefine s) else 0 := by
  induction hs with
  | nil => simp [dispatchIntStart]
  | cons h hs ih =>
    cases h with
    | hOnStart =>
      have e1 : (if v = stages.head? then [Ev.evOnStart] else []).count (Ev.evBehavior s) =
          0 := by split <;> simp
      rw [dispatchIntStart_cons, List.count_append, ih, e1, List.count_cons]
      simp
    | hDefine u =>
      have e1 : (if v = some u then [Ev.evBehavior u] else []).count (Ev.evBehavior s) =
          if v = some u then (if u = s then 1 else 0) else 0 := by
        split <;> simp [List.count_cons]
      rw [dispatchIntStart_cons, List.count_append, ih, e1, List.count_cons]
      by_cases hus : u = s
      · subst hus
        split_ifs <;> simp_all [beq_iff_eq] <;> omega
      · split_ifs <;> simp_all [beq_iff_eq] <;> omega

theorem count_evOnStart_enterStage (st : TransState) (v : Option String) :
    (enterStage st v).count Ev.evOnStart =
      if v = st.stages.head? then st.intStart.count IntH.hOnStart else 0 := by
  rw [enterStage, List.count_cons, List.count_append,
    count_evOnStart_dispatchIntStart]
  have h0 : (dispatchExtStart st.extStartSubs v).count Ev.evOnStart = 0 :=
    List.count_eq_zero.mpr fun hm => by
      obtain ⟨s, hs⟩ := mem_dispatchExtStart hm
      exact Ev.noConfusion hs
  rw [h0]
  simp

theorem count_evBehavior_enterStage (st : TransState) (v : Option String) (s : String) :
    (enterStage st v).count (Ev.evBehavior s) =
      if v = some s then st.intStart.count (IntH.hDefine s) else 0 := by
  rw [enterStage, List.count_cons, List.count_append,
    count_evBehavior_dispatchIntStart]
  have h0 : (dispatchExtStart st.extStartSubs v).count (Ev.evBehavior s) = 0 :=
    List.count_eq_zero.mpr fun hm => by
      obtain ⟨u, hu⟩ := mem_dispatchExtStart hm
      exact Ev.noConfusion hu
  rw [h0]
  simp

theorem count_evOnStart_runSuffix (st : TransState) :
    ∀ (T : List String) (t : String), (∀ u ∈ T, some u ≠ st.stages.head?) →
    (runSuffix st t T).count Ev.evOnStart = 0 := by
  intro T
  induction T with
  | nil =>
    intro t _
    rw [runSuffix, List.count_cons]
    have : (List.replicate st.transEndSubs Ev.transEnd).count Ev.evOnStart = 0 :=
      List.count_eq_zero.mpr fun hm => by
        have := List.eq_of_mem_replicate hm
        exact Ev.noConfusion this
    simp [this]
  | cons u T ih =>
    intro t hu
    rw [runSuffix, List.count_append, midEvents, List.count_cons, List.count_append,
      count_evOnStart_enterStage,
      if_neg (hu u (List.mem_cons_self u T)),
      ih u fun x hx => hu x (List.mem_cons_of_mem u hx)]
    have h0 : (dispatchExtEnd st.extEndSubs t).count Ev.evOnStart = 0 :=
      List.count_eq_zero.mpr fun hm => by
        obtain ⟨s, hs⟩ := mem_dispatchExtEnd hm
        exact Ev.noConfusion hs
    simp [h0]

theorem stepCall_internal (st : TransState) (c : Call) :
    (stepCall st c).1.intStart = st.intStart ∧ (stepCall st c).1.advOn = st.advOn := by
  cases c with
  | triggerC ss => exact ⟨rfl, rfl⟩
  | enterC s => exact ⟨rfl, rfl⟩
  | promptC => exact ⟨rfl, rfl⟩
  | inputC => exact ⟨rfl, rfl⟩
  | finishC v =>
    cases hadv : st.advOn with
    | false => simp [stepCall, finishStage, hadv]
    | true =>
      by_cases hg : jsIndexOf st.stages v < (st.stages.length : Int) - 1 <;>
        simp [stepCall, finishStage, advanceStep, hadv, hg, clearedOf]

theorem runCalls_internal (cs : List Call) : ∀ st : TransState,
    (runCalls st cs).1.intStart = st.intStart ∧
    (runCalls st cs).1.advOn = st.advOn := by
  induction cs with
  | nil => intro st; exact ⟨rfl, rfl⟩
  | cons c cs ih =>
    intro st
    obtain ⟨h1, h2⟩ := stepCall_internal st c
    obtain ⟨k1, k2⟩ := ih (stepCall st c).1
    constructor
    · rw [show (runCalls st (c :: cs)).1 = (runCalls (stepCall st c).1 cs).1 from by
        simp [runCalls]]
      rw [k1, h1]
    · rw [show (runCalls st (c :: cs)).1 = (runCalls (stepCall st c).1 cs).1 from by
        simp [runCalls]]
      rw [k2, h2]

/-- A full externally driven run from any state with the advancement listener
installed: the trace decomposes into the trigger's stage-enter dispatch
followed by the suffix events, and the final state is the cleared version of
the mid-run state. -/
theorem run_trace (s0 : String) (T : List String) (st : TransState)
    (hnd : (s0 :: T).Nodup) (hadv : st.advOn = true) :
    runCalls st (Call.triggerC (s0 :: T) :: (s0 :: T).map Call.finishC) =
      (clearedOf { st with stages := s0 :: T, camPaused := false, camHidden := false },
       enterStage { st with stages := s0 :: T } (some s0) ++
         runSuffix { st with stages := s0 :: T, camPaused := false, camHidden := false }
           s0 T) := by
  set act : TransState :=
    { st with stages := s0 :: T, camPaused := false, camHidden := false } with hact
  have h1 : runCalls st [Call.triggerC (s0 :: T)] =
      (act, enterStage { st with stages := s0 :: T } (some s0)) := by
    simp [runCalls, stepCall, triggerRun, hact]
  have hrun := runFinishSuffix T [] s0 act (by rw [hact]; exact hadv)
    (by simp [hact]) (by simpa using hnd)
  rw [show (Call.triggerC (s0 :: T) :: List.map Call.finishC (s0 :: T)) =
      [Call.triggerC (s0 :: T)] ++ List.map Call.finishC (s0 :: T) from rfl,
    runCalls_append, h1]
  show ((runCalls act (List.map Call.finishC (s0 :: T))).1,
      enterStage { st with stages := s0 :: T } (some s0) ++
        (runCalls act (List.map Call.finishC (s0 :: T))).2) = _
  rw [hrun]

/-- C3 (counterexample): from the mid-run state `c3State` (current sequence
`["prep","win"]`), calling `finishStage("lose")` — a stage not in the
sequence — is NOT a silent no-op: `indexOf` returns `-1`, `-1 < length - 1`
holds, and `stages[-1+1] = stages[0] = "prep"` is re-entered, running the
"prep" behavior and firing the external stage-start("prep") subscriber, after
which the external stage-end("lose") subscriber fires too. -/
theorem c3_counterexample :
    extEvents (finishStage c3State "lose").2 =
      [Ev.extStart "prep", Ev.extEnd "lose"] ∧
    (finishStage c3State "lose").2.count (Ev.evBehavior "prep") = 1 ∧
    extEvents (finishStage c3State "lose").2 ≠ [] := by
  exact ⟨by decide, by decide, by decide⟩

/-- C3 (amended): calling `finishStage` with a stage value not present in the
current non-empty sequence is not ignored: the state is unchanged, but the
run restarts — `indexOf` yields `-1`, the guard `-1 < length - 1` holds, and
the stage at position `0` is re-entered (a stage-enter dispatch of
`stages[0]` occurs, running its registered behaviors and external
stage-start subscribers), after which the external stage-end channel is
dispatched with the unknown stage. -/
theorem c3_unknown_stage_not_ignored (st : TransState) (v : String)
    (hadv : st.advOn = true) (hv : v ∉ st.stages) (hne : st.stages ≠ []) :
    finishStage st v =
      (st, Ev.finishD v ::
        (enterStage st st.stages.head? ++ dispatchExtEnd st.extEndSubs v)) ∧
    Ev.enterD st.stages.head? ∈ (finishStage st v).2 := by
  refine ⟨finishStage_unknown hadv hv hne, ?_⟩
  rw [finishStage_unknown hadv hv hne]
  simp [enterStage]

/-- C3 (witness): the amended behavior at the concrete input
(`c3State`, `"lose"`). -/
theorem c3_unknown_stage_not_ignored_witness :
    finishStage c3State "lose" =
      (c3State, Ev.finishD "lose" ::
        (enterStage c3State c3State.stages.head? ++
          dispatchExtEnd c3State.extEndSubs "lose")) ∧
    Ev.enterD c3State.stages.head? ∈ (finishStage c3State "lose").2 :=
  c3_unknown_stage_not_ignored c3State "lose" (by decide) (by decide) (by decide)

theorem run_count_evOnStart (s0 : String) (T : List String) (st : TransState)
    (hnd : (s0 :: T).Nodup) (hadv : st.advOn = true) :
    ((runCalls st (Call.triggerC (s0 :: T) :: (s0 :: T).map Call.finishC)).2).count
        Ev.evOnStart = st.intStart.count IntH.hOnStart := by
  rw [run_trace s0 T st hnd hadv]
  have hs0T : s0 ∉ T := (List.nodup_cons.mp hnd).1
  have hz := count_evOnStart_runSuffix
    { st with stages := s0 :: T, camPaused := false, camHidden := false } T s0
    (fun u hu he => hs0T (Option.some.inj he ▸ hu))
  show (enterStage { st with stages := s0 :: T } (some s0) ++
      runSuffix { st with stages := s0 :: T, camPaused := false, camHidden := false }
        s0 T).count Ev.evOnStart = st.intStart.count IntH.hOnStart
  rw [List.count_append, count_evOnStart_enterStage, hz]
  simp

/-- C4 (counterexample): with a single `onStart` registration and the single
run `trigger(["A","B","A"]); finishStage("A"); finishStage("B")`, the
registered action runs twice: entering the duplicate value "A" at position 2
also passes the `stage == stages[0]` filter.  The claim's "does not fire again
when later stages of the same run are entered" predicts one invocation. -/
theorem c4_counterexample :
    ((runCalls (createTransition [DefCmd.dOnStart])
        [Call.triggerC ["A", "B", "A"], Call.finishC "A", Call.finishC "B"]).2).count
        Ev.evOnStart = 2 ∧
    ((runCalls (createTransition [DefCmd.dOnStart])
        [Call.triggerC ["A", "B", "A"], Call.finishC "A", Call.finishC "B"]).2).count
        Ev.evOnStart ≠ 1 := by
  exact ⟨by decide, by decide⟩

/-- C4 (amended): an `onStart` action fires exactly when the *value* of the
entered stage equals the current sequence's first element (a value filter,
not a position filter): per stage-enter dispatch it runs once per `onStart`
registration when the dispatched value equals `stages[0]` and never
otherwise.  Hence over a fully driven run whose stage values are
pairwise-distinct it runs exactly once (at the entry of the first stage), and
over two consecutive such runs exactly twice (it fires again on the second
`trigger`, including with a different first stage) — but a sequence that
repeats its first stage value, such as `["A","B","A"]`, re-fires it within
one run. -/
theorem c4_onStart_value_filter :
    (∀ (st : TransState) (v : Option String),
      (enterStage st v).count Ev.evOnStart =
        if v = st.stages.head? then st.intStart.count IntH.hOnStart else 0) ∧
    (∀ (s0 : String) (T : List String) (st : TransState), (s0 :: T).Nodup →
      st.advOn = true → st.intStart = [IntH.hOnStart] →
      ((runCalls st (Call.triggerC (s0 :: T) :: (s0 :: T).map Call.finishC)).2).count
          Ev.evOnStart = 1) ∧
    (∀ (s0 s0' : String) (T T' : List String) (st : TransState),
      (s0 :: T).Nodup → (s0' :: T').Nodup → st.advOn = true →
      st.intStart = [IntH.hOnStart] →
      ((runCalls st ((Call.triggerC (s0 :: T) :: (s0 :: T).map Call.finishC) ++
          (Call.triggerC (s0' :: T') :: (s0' :: T').map Call.finishC))).2).count
          Ev.evOnStart = 2) := by
  refine ⟨count_evOnStart_enterStage, ?_, ?_⟩
  · intro s0 T st hnd hadv hint
    rw [run_count_evOnStart s0 T st hnd hadv, hint]
    rfl
  · intro s0 s0' T T' st hnd hnd' hadv hint
    rw [runCalls_append, List.count_append]
    have h1 : ((runCalls st (Call.triggerC (s0 :: T) :: (s0 :: T).map Call.finishC)).2).count
        Ev.evOnStart = 1 := by
      rw [run_count_evOnStart s0 T st hnd hadv, hint]
      rfl
    obtain ⟨ki, ka⟩ := runCalls_internal
      (Call.triggerC (s0 :: T) :: (s0 :: T).map Call.finishC) st
    have h2 : ((runCalls (runCalls st (Call.triggerC (s0 :: T) ::
        (s0 :: T).map Call.finishC)).1
        (Call.triggerC (s0' :: T') :: (s0' :: T').map Call.finishC)).2).count
        Ev.evOnStart = 1 := by
      rw [run_count_evOnStart s0' T' _ hnd' (by rw [ka]; exact hadv), ki, hint]
      rfl
    rw [h1, h2]

/-- C4 (witness): the amended run counts at the concrete runs
`["prep","win"]` and then `["lose"]` on a handle whose definition registered
one `onStart` action. -/
theorem c4_onStart_value_filter_witness :
    ((runCalls (createTransition [DefCmd.dOnStart])
        (Call.triggerC ["prep", "win"] ::
          (["prep", "win"] : List String).map Call.finishC)).2).count Ev.evOnStart = 1 ∧
    ((runCalls (createTransition [DefCmd.dOnStart])
        ((Call.triggerC ["prep", "win"] ::
            (["prep", "win"] : List String).map Call.finishC) ++
          (Call.triggerC ["lose"] ::
            (["lose"] : List String).map Call.finishC))).2).count Ev.evOnStart = 2 :=
  ⟨c4_onStart_value_filter.2.1 "prep" ["win"] (createTransition [DefCmd.dOnStart])
      (by decide) (by decide) (by decide),
   c4_onStart_value_filter.2.2 "prep" "lose" ["win"] [] (createTransition [DefCmd.dOnStart])
      (by decide) (by decide) (by decide) (by decide)⟩

/-- C5: a `defineStage(stage, action)` registration fires exactly when a
stage-enter dispatch carries its stage's value — once per registration per
matching dispatch; the internal registration list survives every API call
(so it persists across multiple `trigger` runs for the controller's
lifetime); and in the concrete sequence `[A,B,A]`, driving
`trigger; finishStage(A); finishStage(B)` invokes the single registered `A`
behavior exactly twice (once per occurrence of `A` entered). -/
theorem c5_defineStage_every_entry :
    (∀ (st : TransState) (v : Option String) (s : String),
      (enterStage st v).count (Ev.evBehavior s) =
        if v = some s then st.intStart.count (IntH.hDefine s) else 0) ∧
    (∀ (st : TransState) (cs : List Call), (runCalls st cs).1.intStart = st.intStart) ∧
    ((runCalls (createTransition [DefCmd.dDefine "A"])
        [Call.triggerC ["A", "B", "A"], Call.finishC "A", Call.finishC "B"]).2).count
        (Ev.evBehavior "A") = 2 := by
  exact ⟨count_evBehavior_enterStage, fun st cs => (runCalls_internal cs st).1, by decide⟩

theorem precedes_of_not_mem {a b : Ev} {l : List Ev} (h : a ∉ l) : Precedes a b l := by
  intro t1 t2 hsplit
  have : a ∉ t1 := fun hm => h (hsplit ▸ List.mem_append_left t2 hm)
  rw [List.count_eq_zero.mpr this]
  exact Nat.zero_le _

theorem Precedes.total {a b : Ev} {l : List Ev} (h : Precedes a b l) :
    l.count a ≤ l.count b :=
  h l [] (List.append_nil l).symm

theorem precedes_append {a b : Ev} {l1 l2 : List Ev}
    (h1 : Precedes a b l1) (h2 : Precedes a b l2) :
    Precedes a b (l1 ++ l2) := by
  intro t1 t2 hsplit
  rcases List.append_eq_append_iff.mp hsplit.symm with ⟨m, hm1, hm2⟩ | ⟨m, hm1, hm2⟩
  · exact h1 t1 m hm1
  · rw [hm1, List.count_append, List.count_append]
    exact Nat.add_le_add h1.total (h2 m t2 hm2)

theorem precedes_cons_head {a b : Ev} {rest : List Ev}
    (hab : a ≠ b) (hcnt : rest.count a ≤ 1) : Precedes a b (b :: rest) := by
  intro t1 t2 hsplit
  cases t1 with
  | nil => simp
  | cons x t1' =>
    rw [List.cons_append] at hsplit
    injection hsplit with hx hrest
    subst hx
    have h1 : t1'.count a ≤ 1 := by
      calc t1'.count a ≤ t1'.count a + t2.count a := Nat.le_add_right _ _
        _ = (t1' ++ t2).count a := (List.count_append ..).symm
        _ = rest.count a := by rw [hrest]
        _ ≤ 1 := hcnt
    rw [List.count_cons_of_ne hab, List.count_cons_self]
    omega

theorem mem_dispatchIntStart {hs : List IntH} {stages : List String} {v : Option String}
    {x : Ev} (h : x ∈ dispatchIntStart hs stages v) :
    x = Ev.evOnStart ∨ ∃ s, x = Ev.evBehavior s := by
  rw [dispatchIntStart, List.mem_filterMap] at h
  obtain ⟨a, _, hfa⟩ := h
  cases a with
  | hOnStart =>
    have hfa' : (if v = stages.head? then some Ev.evOnStart else none) = some x := hfa
    by_cases hc : v = stages.head?
    · rw [if_pos hc] at hfa'
      exact Or.inl (Option.some.inj hfa').symm
    · rw [if_neg hc] at hfa'
      exact absurd hfa' Option.noConfusion
  | hDefine s =>
    have hfa' : (if v = some s then some (Ev.evBehavior s) else none) = some x := hfa
    by_cases hc : v = some s
    · rw [if_pos hc] at hfa'
      exact Or.inr ⟨s, (Option.some.inj hfa').symm⟩
    · rw [if_neg hc] at hfa'
      exact absurd hfa' Option.noConfusion

theorem stepCall_finish_stages (st : TransState) (v : String) :
    (stepCall st (Call.finishC v)).1.stages = st.stages := by
  cases hadv : st.advOn with
  | false => simp [stepCall, finishStage, hadv]
  | true =>
    by_cases hg : jsIndexOf st.stages v < (st.stages.length : Int) - 1 <;>
      simp [stepCall, finishStage, advanceStep, hadv, hg, clearedOf]

theorem step_precedes_finish {S : List String} {i : Nat} {u w : String}
    (hnd : S.Nodup) (hu : S[i]? = some u) (hw : S[(i + 1)]? = some w)
    (st : TransState) (hst : st.stages = S) (v : String) :
    Precedes (Ev.enterD (some w)) (Ev.finishD u) (stepCall st (Call.finishC v)).2 := by
  subst hst
  cases hadv : st.advOn with
  | false =>
    have hs : stepCall st (Call.finishC v) =
        (st, Ev.finishD v :: dispatchExtEnd st.extEndSubs v) := by
      simp [stepCall, finishStage, hadv]
    rw [hs]
    refine precedes_of_not_mem fun hm => ?_
    rcases List.mem_cons.mp hm with he | hm2
    · exact Ev.noConfusion he
    · obtain ⟨s, hsx⟩ := mem_dispatchExtEnd hm2
      exact Ev.noConfusion hsx
  | true =>
    by_cases hg : jsIndexOf st.stages v < (st.stages.length : Int) - 1
    · have hs : stepCall st (Call.finishC v) =
          (st, Ev.finishD v ::
            (enterStage st st.stages[(jsIndexOf st.stages v + 1).toNat]? ++
              dispatchExtEnd st.extEndSubs v)) := by
        simp [stepCall, finishStage, advanceStep, hadv, hg]
      rw [hs]
      by_cases hnw : st.stages[(jsIndexOf st.stages v + 1).toNat]? = some w
      · have hk : (jsIndexOf st.stages v + 1).toNat < st.stages.length := by
          by_contra hlt
          rw [List.getElem?_eq_none (Nat.le_of_not_lt hlt)] at hnw
          exact Option.noConfusion hnw
        have hkeq : (jsIndexOf st.stages v + 1).toNat = i + 1 := by
          apply List.getElem?_inj hk hnd
          rw [hnw, hw]
        have hvu : v = u := by
          rcases hj : jsIndexOfN st.stages v with _ | m
          · exfalso
            have : jsIndexOf st.stages v = -1 := by rw [jsIndexOf, hj]
            rw [this] at hkeq
            simp at hkeq
          · have hjm : jsIndexOf st.stages v = (m : Int) := by rw [jsIndexOf, hj]
            have hmi : m = i := by
              rw [hjm] at hkeq
              omega
            have := jsIndexOfN_getElem? hj
            rw [hmi, hu] at this
            exact (Option.some.inj this).symm
        subst hvu
        rw [hnw]
        apply precedes_cons_head (fun h => Ev.noConfusion h)
        rw [enterStage, List.cons_append, List.count_cons_self,
          List.count_append, List.count_append]
        have z1 : (dispatchIntStart st.intStart st.stages (some w)).count
            (Ev.enterD (some w)) = 0 :=
          List.count_eq_zero.mpr fun hm => by
            rcases mem_dispatchIntStart hm with h | ⟨s, h⟩ <;> exact Ev.noConfusion h
        have z2 : (dispatchExtStart st.extStartSubs (some w)).count
            (Ev.enterD (some w)) = 0 :=
          List.count_eq_zero.mpr fun hm => by
            obtain ⟨s, h⟩ := mem_dispatchExtStart hm
            exact Ev.noConfusion h
        have z3 : (dispatchExtEnd st.extEndSubs v).count (Ev.enterD (some w)) = 0 :=
          List.count_eq_zero.mpr fun hm => by
            obtain ⟨s, h⟩ := mem_dispatchExtEnd hm
            exact Ev.noConfusion h
        omega
      · refine precedes_of_not_mem fun hm => ?_
        rcases List.mem_cons.mp hm with he | hm2
        · exact Ev.noConfusion he
        rcases List.mem_append.mp hm2 with hm3 | hm4
        · rw [enterStage] at hm3
          rcases List.mem_cons.mp hm3 with he2 | hm5
          · injection he2 with h
            exact hnw h.symm
          rcases List.mem_append.mp hm5 with h6 | h7
          · rcases mem_dispatchIntStart h6 with h | ⟨s, h⟩ <;> exact Ev.noConfusion h
          · obtain ⟨s, h⟩ := mem_dispatchExtStart h7
            exact Ev.noConfusion h
        · obtain ⟨s, h⟩ := mem_dispatchExtEnd hm4
          exact Ev.noConfusion h
    · have hs : stepCall st (Call.finishC v) =
          (clearedOf st, Ev.finishD v :: List.replicate st.transEndSubs Ev.transEnd) := by
        simp only [stepCall, finishStage, advanceStep, hadv, if_true, if_neg hg]
        rw [show dispatchExtEnd (clearedOf st).extEndSubs v = [] from rfl]
        simp
      rw [hs]
      refine precedes_of_not_mem fun hm => ?_
      rcases List.mem_cons.mp hm with he | hm2
      · exact Ev.noConfusion he
      · exact Ev.noConfusion (List.eq_of_mem_replicate hm2)

theorem precedes_finishes {S : List String} {i : Nat} {u w : String}
    (hnd : S.Nodup) (hu : S[i]? = some u) (hw : S[(i + 1)]? = some w) :
    ∀ (vs : List String) (st : TransState), st.stages = S →
    Precedes (Ev.enterD (some w)) (Ev.finishD u)
      (runCalls st (vs.map Call.finishC)).2 := by
  intro vs
  induction vs with
  | nil =>
    intro st _ t1 t2 h
    obtain ⟨h1, _⟩ := List.append_eq_nil.mp h.symm
    subst h1
    simp
  | cons v vs ih =>
    intro st hst
    have hstages : (stepCall st (Call.finishC v)).1.stages = S := by
      rw [stepCall_finish_stages, hst]
    have hdecomp : (runCalls st ((v :: vs).map Call.finishC)).2 =
        (stepCall st (Call.finishC v)).2 ++
          (runCalls (stepCall st (Call.finishC v)).1 (vs.map Call.finishC)).2 := by
      simp [runCalls]
    rw [hdecomp]
    exact precedes_append (step_precedes_finish hnd hu hw st hst v)
      (ih (stepCall st (Call.finishC v)).1 hstages)

theorem trigger_not_enterD {st0 : TransState} {S : List String} {w : String}
    (hne : S.head? ≠ some w) :
    Ev.enterD (some w) ∉ (stepCall st0 (Call.triggerC S)).2 := by
  intro hm
  rw [show (stepCall st0 (Call.triggerC S)).2 =
      enterStage { st0 with stages := S } S.head? from rfl, enterStage] at hm
  rcases List.mem_cons.mp hm with he | hm2
  · injection he with h
    exact hne h.symm
  rcases List.mem_append.mp hm2 with h1 | h2
  · rcases mem_dispatchIntStart h1 with h | ⟨s, h⟩ <;> exact Ev.noConfusion h
  · obtain ⟨s, h⟩ := mem_dispatchExtStart h2
    exact Ev.noConfusion h

/-- C7: for a run driven through the public API — one `trigger(S)` with
pairwise-distinct stages followed by arbitrary `finishStage` calls — the
stage at position `i+1` never starts before `finishStage` has been observed
for the stage at position `i`: in every prefix of the event trace, the number
of stage-enter dispatches for `S[i+1]` is bounded by the number of stage-end
dispatches for `S[i]`.  (The only transition entering position `i+1` is the
advancement inside the stage-end dispatch of the stage at position `i`.) -/
theorem c7_sequential_advancement (st0 : TransState) (S : List String)
    (vs : List String) {i : Nat} {u w : String}
    (hnd : S.Nodup) (hu : S[i]? = some u) (hw : S[(i + 1)]? = some w)
    (t1 t2 : List Ev)
    (h : (runCalls st0 (Call.triggerC S :: vs.map Call.finishC)).2 = t1 ++ t2) :
    t1.count (Ev.enterD (some w)) ≤ t1.count (Ev.finishD u) := by
  have hi1 : i + 1 < S.length := by
    by_contra hlt
    rw [List.getElem?_eq_none (Nat.le_of_not_lt hlt)] at hw
    exact Option.noConfusion hw
  have h0 : S.head? ≠ some w := by
    intro hh
    have h0' : S[0]? = some w := by rw [← List.head?_eq_getElem?]; exact hh
    have : (0 : Nat) = i + 1 := List.getElem?_inj (by omega) hnd (h0'.trans hw.symm)
    omega
  have hstages : (stepCall st0 (Call.triggerC S)).1.stages = S := rfl
  have hdecomp : (runCalls st0 (Call.triggerC S :: vs.map Call.finishC)).2 =
      (stepCall st0 (Call.triggerC S)).2 ++
        (runCalls (stepCall st0 (Call.triggerC S)).1 (vs.map Call.finishC)).2 := by
    simp [runCalls]
  have hpre : Precedes (Ev.enterD (some w)) (Ev.finishD u)
      (runCalls st0 (Call.triggerC S :: vs.map Call.finishC)).2 := by
    rw [hdecomp]
    exact precedes_append (precedes_of_not_mem (trigger_not_enterD h0))
      (precedes_finishes hnd hu hw vs _ hstages)
  exact hpre t1 t2 h

/-- C7 (witness): the precedence bound at the concrete run
`trigger(["prep","win"]); finishStage("prep"); finishStage("win")`, for
positions 0 ("prep") and 1 ("win"), over the full trace. -/
theorem c7_sequential_advancement_witness :
    ((runCalls (subscribedState ["prep", "win"])
        (Call.triggerC ["prep", "win"] ::
          (["prep", "win"] : List String).map Call.finishC)).2).count
        (Ev.enterD (some "win")) ≤
      ((runCalls (subscribedState ["prep", "win"])
        (Call.triggerC ["prep", "win"] ::
          (["prep", "win"] : List String).map Call.finishC)).2).count
        (Ev.finishD "prep") :=
  c7_sequential_advancement (subscribedState ["prep", "win"]) ["prep", "win"]
    ["prep", "win"] (i := 0) (by decide) (by decide) (by decide) _ []
    (List.append_nil _).symm

/-- C6: `trigger(S)` for non-empty `S` replaces the run sequence with `S`
regardless of the previous state (full discard), leaves the camera unpaused
and unhidden, and performs the stage-enter dispatch of `S[0]`; the handle's
read-only `stages` view reads the controller's current sequence live — after
a further `trigger(S₂)` it equals `S₂`, not any snapshot. -/
theorem c6_trigger_resets (st : TransState) (S : List String) (hS : S ≠ []) :
    (triggerRun st S).1.stages = S ∧
    (triggerRun st S).1.camPaused = false ∧
    (triggerRun st S).1.camHidden = false ∧
    stagesView (triggerRun st S).1 = S ∧
    (∃ s0, S.head? = some s0 ∧
      (triggerRun st S).2 = enterStage { st with stages := S } (some s0)) ∧
    (∀ S₂ : List String, stagesView (triggerRun (triggerRun st S).1 S₂).1 = S₂) := by
  obtain ⟨s0, T, rfl⟩ : ∃ s0 T, S = s0 :: T := by
    cases S with
    | nil => exact absurd rfl hS
    | cons a T => exact ⟨a, T, rfl⟩
  exact ⟨rfl, rfl, rfl, rfl, ⟨s0, rfl, rfl⟩, fun S₂ => rfl⟩

/-- C6 (witness): the trigger facts at the fresh handle and `S = ["prep"]`. -/
theorem c6_trigger_resets_witness :
    (triggerRun (createTransition []) ["prep"]).1.stages = ["prep"] ∧
    (triggerRun (createTransition []) ["prep"]).1.camPaused = false ∧
    (triggerRun (createTransition []) ["prep"]).1.camHidden = false ∧
    stagesView (triggerRun (createTransition []) ["prep"]).1 = ["prep"] ∧
    (∃ s0, (["prep"] : List String).head? = some s0 ∧
      (triggerRun (createTransition []) ["prep"]).2 =
        enterStage { createTransition [] with stages := ["prep"] } (some s0)) ∧
    (∀ S₂ : List String,
      stagesView (triggerRun (triggerRun (createTransition []) ["prep"]).1 S₂).1 = S₂) :=
  c6_trigger_resets (createTransition []) ["prep"] (by decide)

theorem runDef_preserves (d : List DefCmd) : ∀ st : TransState,
    (runDef st d).defRuns = st.defRuns ∧ (runDef st d).advOn = st.advOn := by
  induction d with
  | nil => intro st; exact ⟨rfl, rfl⟩
  | cons c d ih =>
    intro st
    cases c with
    | dOnStart => exact ih (onStartReg st)
    | dDefine s => exact ih (defineStageReg st s)

theorem stepCall_defRuns (st : TransState) (c : Call) :
    (stepCall st c).1.defRuns = st.defRuns := by
  cases c with
  | triggerC ss => rfl
  | enterC s => rfl
  | promptC => rfl
  | inputC => rfl
  | finishC v =>
    cases hadv : st.advOn with
    | false => simp [stepCall, finishStage, hadv]
    | true =>
      by_cases hg : jsIndexOf st.stages v < (st.stages.length : Int) - 1 <;>
        simp [stepCall, finishStage, advanceStep, hadv, hg, clearedOf]

theorem runCalls_defRuns (cs : List Call) : ∀ st : TransState,
    (runCalls st cs).1.defRuns = st.defRuns := by
  induction cs with
  | nil => intro st; rfl
  | cons c cs ih =>
    intro st
    rw [show (runCalls st (c :: cs)).1 = (runCalls (stepCall st c).1 cs).1 from by
      simp [runCalls]]
    rw [ih, stepCall_defRuns]

/-- C8: the caller-supplied Transition Definition executes exactly once per
handle, at construction (`defRuns` counts its executions and is `1` on the
state `createTransition` returns); no API call on the handle ever executes it
again (`defRuns` is invariant under every `stepCall`/`runCalls`); and the
advancement listener is installed before the definition runs — it is present
on the construction-time state and definition execution cannot change it, so
all stage-behavior registrations happen against a fully wired controller
before any stage is triggered. -/
theorem c8_definition_runs_once :
    (∀ d : List DefCmd, (createTransition d).defRuns = 1) ∧
    (∀ (st : TransState) (c : Call), (stepCall st c).1.defRuns = st.defRuns) ∧
    (∀ (st : TransState) (cs : List Call), (runCalls st cs).1.defRuns = st.defRuns) ∧
    initState.advOn = true ∧
    (∀ (st : TransState) (d : List DefCmd), (runDef st d).advOn = st.advOn) := by
  refine ⟨fun d => ?_, stepCall_defRuns, fun st cs => runCalls_defRuns cs st, rfl,
    fun st d => (runDef_preserves d st).2⟩
  show (runDef initState d).defRuns + 1 = 1
  rw [(runDef_preserves d initState).1]
  rfl

/-- C9 (counterexample): with one subscriber, bpm 60 (one beat per second)
and a single frame at playback position 5/2 seconds, the playback crossed two
beat boundaries (beat index goes from 0 to 2) but the subscriber is invoked
only once — the conductor fires on index *change*, not once per boundary
crossed. -/
theorem c9_counterexample :
    (conductorRun 60 ⟨0, 1⟩ [5 / 2]).2.length = 1 ∧
    boundariesCrossed 60 ⌊(0 : ℚ)⌋ [5 / 2] = 2 ∧
    (conductorRun 60 ⟨0, 1⟩ [5 / 2]).2.length ≠
      boundariesCrossed 60 ⌊(0 : ℚ)⌋ [5 / 2] := by
  have h1 : beatIndex 60 (5 / 2) = 2 := by
    rw [beatIndex]
    rw [show ((60 : ℚ) / 60) = 1 by norm_num, div_one, Int.floor_eq_iff] <;> norm_num
  have h2 : (conductorRun 60 ⟨0, 1⟩ [5 / 2]).2.length = 1 := by
    simp [conductorRun, conductorUpdate, h1, Int.floor_zero]
  have h3 : boundariesCrossed 60 ⌊(0 : ℚ)⌋ [5 / 2] = 2 := by
    simp [boundariesCrossed, h1, Int.floor_zero]
  refine ⟨h2, h3, ?_⟩
  rw [h2, h3]
  omega

/-- C9 (amended): on every frame update the conductor derives the beat index
`⌊time / (60 / bpm)⌋` from the playback position and fires its subscribers
exactly once — each subscribed callback once — when that index differs from
the previous frame's stored index, and not at all otherwise; over a frame
sequence the number of callback invocations is (number of subscribers) ×
(number of frames at which the derived index changed), regardless of how many
beat boundaries a single frame skips over. -/
theorem c9_beat_fires_on_index_change :
    (∀ (bpm : ℚ) (st : CondState) (t : ℚ),
      (conductorUpdate bpm st t).2.length =
        if beatIndex bpm t ≠ ⌊st.currentBeat⌋ then st.subs else 0) ∧
    (∀ (bpm : ℚ) (st : CondState) (ts : List ℚ),
      (conductorRun bpm st ts).2.length =
        st.subs * idxChanges bpm ⌊st.currentBeat⌋ ts) := by
  constructor
  · intro bpm st t
    rw [conductorUpdate]
    split <;> simp_all
  · intro bpm st ts
    induction ts generalizing st with
    | nil => simp [conductorRun, idxChanges]
    | cons t ts ih =>
      rw [conductorRun]
      show ((conductorUpdate bpm st t).2 ++
        (conductorRun bpm (conductorUpdate bpm st t).1 ts).2).length = _
      rw [List.length_append, ih]
      rw [show (conductorUpdate bpm st t).1 = ⟨(beatIndex bpm t : ℚ), st.subs⟩ from rfl]
      rw [show (conductorUpdate bpm st t).2 =
        (if beatIndex bpm t ≠ ⌊st.currentBeat⌋
          then List.replicate st.subs CEv.beat else []) from rfl]
      rw [idxChanges]
      have hfl : ⌊((beatIndex bpm t : ℚ))⌋ = beatIndex bpm t := Int.floor_intCast _
      rw [hfl]
      split <;> simp [Nat.mul_add, Nat.mul_one]

/-- C10: `trigger([])` raises no error: it replaces the sequence with the
empty list, unpauses/unhides the camera, and dispatches one stage-enter with
the absent value (`stages[0]` is `undefined`, i.e. `none`).  In that dispatch
every `onStart` registration fires (the absent entered value compares equal
to the absent first element of the empty sequence), while no `defineStage`
behavior and no external subscriber of any channel fires. -/
theorem c10_trigger_empty (st : TransState) :
    (triggerRun st []).1.stages = [] ∧
    (triggerRun st []).1.camPaused = false ∧
    (triggerRun st []).1.camHidden = false ∧
    (triggerRun st []).2.head? = some (Ev.enterD none) ∧
    (triggerRun st []).2.count Ev.evOnStart = st.intStart.count IntH.hOnStart ∧
    (∀ s, (triggerRun st []).2.count (Ev.evBehavior s) = 0) ∧
    extEvents (triggerRun st []).2 = [] := by
  refine ⟨rfl, rfl, rfl, rfl, ?_, ?_, ?_⟩
  · show (enterStage { st with stages := [] } none).count Ev.evOnStart = _
    rw [count_evOnStart_enterStage]
    rfl
  · intro s
    show (enterStage { st with stages := [] } none).count (Ev.evBehavior s) = 0
    rw [count_evBehavior_enterStage]
    simp
  · show extEvents (enterStage { st with stages := [] } none) = []
    rw [enterStage, dispatchExtStart_none]
    have hint := extEvents_dispatchIntStart st.intStart [] none
    simp only [extEvents, Ev.isExt, List.filter_cons, List.filter_append,
      List.filter_nil, List.append_nil] at hint ⊢
    simp [hint]
